import Mathlib

/-!
Verification of the core synchronization logic of the
`obsidian-secondbrain-sync` plugin.

The development shallowly embeds the TypeScript sources:

* `src/sync/exclusions.ts`  — `ExclusionChecker` (folder and tag rules);
* `src/sync/tracker.ts`     — `SyncTracker` (path → fingerprint state, diffs);
* `src/sync/syncer.ts`      — `VaultSyncer` (queueing, batching, reconciliation);
* `src/api/client.ts`       — `ApiClient.request` (retry policy);
* `src/sync/scheduled-sync.ts` — `ScheduledSyncManager` (adaptive polling,
  pre-digest trigger).

JavaScript plain objects used as string-keyed maps (`Record<string, string>`)
are embedded as insertion-ordered association lists without duplicate keys;
JavaScript `Set<string>` values are embedded as insertion-ordered duplicate-free
lists.  Timestamps are embedded as integer epoch milliseconds and fractional
hour quantities as rationals.
-/

/-- JavaScript `String.prototype.startsWith`: the characters of `p` are a
prefix of the characters of `s`. -/
def strStartsWith (s p : String) : Bool :=
  p.data.isPrefixOf s.data

/-- JavaScript `String.prototype.endsWith`: the characters of `p` are a
suffix of the characters of `s`. -/
def strEndsWith (s p : String) : Bool :=
  p.data.isSuffixOf s.data

/-- A JavaScript `Record<string, string>`: insertion-ordered association
list of key/value pairs. -/
abbrev Rec := List (String × String)

/-- Property lookup `r[p]`: the value of the first entry with key `p`
(`none` plays the role of `undefined`). -/
def lookupRec (r : Rec) (p : String) : Option String :=
  (r.find? (fun e => e.1 == p)).map (fun e => e.2)

/-- The JavaScript `p in r` test. -/
def hasKey (r : Rec) (p : String) : Bool :=
  (lookupRec r p).isSome

/-- Property assignment `r[p] = v`: overwrite in place when the key exists,
otherwise append a fresh entry (JavaScript insertion order). -/
def jsSet (r : Rec) (p v : String) : Rec :=
  if hasKey r p then r.map (fun e => if e.1 == p then (e.1, v) else e)
  else r ++ [(p, v)]

/-- Object spread `{...a, ...b}`: keys of `a` keep their position (values
overridden by `b` where present), keys of `b` new to `a` are appended. -/
def mergeRec (a b : Rec) : Rec :=
  a.map (fun e => (e.1, (lookupRec b e.1).getD e.2)) ++
    b.filter (fun e => !(hasKey a e.1))

/-- `for (const p of ps) delete r[p]`: drop every entry whose key occurs in
`ps`. -/
def removeKeys (r : Rec) (ps : List String) : Rec :=
  r.filter (fun e => !(ps.contains e.1))

/-! ### Exclusion rules — `src/sync/exclusions.ts` -/

/-- Exclusion rules: folder path prefixes and tag strings (`src/types.ts`). -/
structure ExclusionRules where
  folders : List String
  tags : List String
  deriving DecidableEq

/-- `ExclusionChecker.matchesPath`: the rule folder is normalized to end with
a trailing slash (`folder.endsWith('/') ? folder : folder + '/'`). -/
def normalizedFolder (folder : String) : String :=
  if strEndsWith folder "/" then folder else folder ++ "/"

/-- `ExclusionChecker.matchesPath`: the candidate path must start with a
rule folder normalized to carry a trailing slash; the candidate itself is
used verbatim. -/
def matchesPath (rules : ExclusionRules) (path : String) : Bool :=
  rules.folders.any (fun folder => strStartsWith path (normalizedFolder folder))

/-- The folder-match test as the specification words it: the string prefix
test is performed "after appending a trailing separator to both" the rule
and the candidate path, so a candidate exactly equal to the rule folder
matches.  Written from the spec sentence for comparison with the source
function `matchesPath`. -/
def specMatchesPath (rules : ExclusionRules) (path : String) : Bool :=
  rules.folders.any
    (fun folder => strStartsWith (normalizedFolder path) (normalizedFolder folder))

/-- Tag normalization used by `ExclusionChecker.matchesTags`:
ensure a leading `#`. -/
def normalizedTag (tag : String) : String :=
  if strStartsWith tag "#" then tag else "#" ++ tag

/-- `normalizedTag.substring(1)`: drop the leading character. -/
def withoutHash (tag : String) : String :=
  ⟨tag.data.drop 1⟩

/-- `ExclusionChecker.matchesTags`: any candidate tag, normalized to a `#`
form, occurring in the rule tag list either with or without the `#`. -/
def matchesTags (rules : ExclusionRules) (tags : List String) : Bool :=
  tags.any (fun tag =>
    rules.tags.contains (normalizedTag tag) ||
      rules.tags.contains (withoutHash (normalizedTag tag)))

/-- `ExclusionChecker.shouldExclude` (path plus tag list of a file). -/
def shouldExclude (rules : ExclusionRules) (path : String) (tags : List String) : Bool :=
  matchesPath rules path || matchesTags rules tags

/-! ### Note metadata — `src/types.ts` -/

/-- `NoteMetadata` as produced by the vault scanner. -/
structure Note where
  path : String
  title : String
  content : String
  contentHash : String
  tags : List String
  headings : List String
  links : List String
  frontmatter : List (String × String)
  wordCount : Nat
  createdTime : String
  modifiedTime : String
  deriving DecidableEq

/-- `ExclusionChecker.shouldExcludeNote`. -/
def shouldExcludeNote (rules : ExclusionRules) (note : Note) : Bool :=
  matchesPath rules note.path || matchesTags rules note.tags

/-- `ExclusionChecker.filterNotes`: keep the notes not excluded. -/
def filterNotes (rules : ExclusionRules) (notes : List Note) : List Note :=
  notes.filter (fun note => !(shouldExcludeNote rules note))

/-! ### Sync tracker — `src/sync/tracker.ts` -/

/-- `SyncDiff` between current vault state and tracked state. -/
structure SyncDiff where
  changed : List String
  deleted : List String
  deriving DecidableEq

/-- `SyncTracker.hasChanged`: the recorded hash (possibly `undefined`)
differs from the fresh one; absence counts as changed. -/
def hasChanged (noteHashes : Rec) (path newHash : String) : Bool :=
  !(lookupRec noteHashes path == some newHash)

/-- `SyncTracker.calculateDiff`: changed = current entries whose hash
differs from (or is absent in) the record; deleted = recorded paths absent
from the current snapshot. -/
def calculateDiff (noteHashes : Rec) (currentHashes : Rec) : SyncDiff :=
  { changed := (currentHashes.filter (fun e => hasChanged noteHashes e.1 e.2)).map Prod.fst
    deleted := (noteHashes.map Prod.fst).filter (fun path => !(hasKey currentHashes path)) }

/-- `SyncTracker.updateHashes`: object-spread merge of the new hashes over
the tracked map. -/
def updateHashes (noteHashes : Rec) (hashes : Rec) : Rec :=
  mergeRec noteHashes hashes

/-- `SyncTracker.removeHashes`: delete each listed path from the map. -/
def removeHashes (noteHashes : Rec) (paths : List String) : Rec :=
  removeKeys noteHashes paths

/-! ### Batched upload — `VaultSyncer.syncNotesBatched` -/

/-- `BATCH_SIZE`: server allows 100 per request, the client uses 50. -/
def BATCH_SIZE : Nat := 50

/-- The batch loop `for (let i = 0; i < notes.length; i += BATCH_SIZE)`:
each request carries `notes.slice(i, i + BATCH_SIZE)` and the flag
`i + BATCH_SIZE >= notes.length`.  The list of remaining notes shrinks by
`BATCH_SIZE` each round; the `fuel` argument (instantiated with the list
length) bounds the iteration count structurally. -/
def syncNotesBatchedGo : Nat → List Note → List (List Note × Bool)
  | 0, _ => []
  | _, [] => []
  | fuel + 1, x :: xs =>
      ((x :: xs).take BATCH_SIZE, decide ((x :: xs).length ≤ BATCH_SIZE)) ::
        syncNotesBatchedGo fuel ((x :: xs).drop BATCH_SIZE)

/-- The sequence of `(batch, is_final_batch)` requests issued by
`VaultSyncer.syncNotesBatched` for a list of notes. -/
def syncNotesBatched (notes : List Note) : List (List Note × Bool) :=
  syncNotesBatchedGo notes.length notes

/-- A per-item error entry of a `SyncResponse`. -/
structure SyncError where
  path : String
  error : String
  deriving DecidableEq

/-- The `hashUpdates` record built after one batch response: a note's path
maps to its fresh hash exactly when the response has no error entry for
that path. -/
def buildHashUpdates (batch : List Note) (errors : List SyncError) : Rec :=
  batch.foldl
    (fun acc note =>
      if errors.any (fun e => e.path == note.path) then acc
      else jsSet acc note.path note.contentHash)
    []

/-- Tracker update performed after one batch:
`tracker.updateHashes(hashUpdates)`. -/
def applyBatch (tracked : Rec) (batch : List Note) (errors : List SyncError) : Rec :=
  updateHashes tracked (buildHashUpdates batch errors)

/-- The tracker-state effect of the whole batch loop: batch `k` receives
the per-item error list `responses k`; per-item errors are logged but do
not stop the loop.  `fuel` bounds the iteration count structurally and is
instantiated with the list length. -/
def runBatchesGo (responses : Nat → List SyncError) :
    Nat → Rec → List Note → Nat → Rec
  | 0, tracked, _, _ => tracked
  | _, tracked, [], _ => tracked
  | fuel + 1, tracked, x :: xs, k =>
      runBatchesGo responses fuel
        (applyBatch tracked ((x :: xs).take BATCH_SIZE) (responses k))
        ((x :: xs).drop BATCH_SIZE) (k + 1)

/-- Tracker state after `VaultSyncer.syncNotesBatched` runs over `notes`
against server responses `responses` (indexed by batch number). -/
def runSyncNotesBatched (tracked : Rec) (notes : List Note)
    (responses : Nat → List SyncError) : Rec :=
  runBatchesGo responses notes.length tracked notes 0

/-- Outcome of `VaultSyncer.deleteNotes`: the resulting tracker map and
whether the call failed (rethrew). -/
structure DeleteOutcome where
  tracker : Rec
  failed : Bool
  deriving DecidableEq

/-- `VaultSyncer.deleteNotes`: an empty path list short-circuits; otherwise
the server call runs first and `tracker.removeHashes` runs only when it
succeeded — a throw propagates with the tracker untouched. -/
def deleteNotesRun (tracked : Rec) (paths : List String) (callSucceeds : Bool) :
    DeleteOutcome :=
  if paths.length = 0 then ⟨tracked, false⟩
  else if callSucceeds then ⟨removeHashes tracked paths, false⟩
  else ⟨tracked, true⟩

/-- The path → fingerprint snapshot of a scanned note list. -/
def snapshotOf (notes : List Note) : Rec :=
  notes.map (fun note => (note.path, note.contentHash))

/-- Tracker-state effect of a successful `VaultSyncer.fullSync` over the
already-filtered note list: batched upload with no per-item errors, then
deletion of every tracked path absent from the current snapshot
(`Object.keys(this.tracker.getState().noteHashes).filter(...)`). -/
def fullSyncTracker (tracked : Rec) (filteredNotes : List Note) : Rec :=
  let t1 := runSyncNotesBatched tracked filteredNotes (fun _ => [])
  let currentPaths := filteredNotes.map Note.path
  let deletedPaths := (t1.map Prod.fst).filter (fun path => !(currentPaths.contains path))
  removeHashes t1 deletedPaths

/-! ### API client retry — `ApiClient.request` (`src/api/client.ts`) -/

/-- The error thrown by one attempt: a typed `ApiRequestError` carrying the
HTTP status and message, or a transport-level failure. -/
inductive ReqError where
  | api (status : Nat) (message : String)
  | network (message : String)
  deriving DecidableEq

/-- The no-retry test of `ApiClient.request`: a 4xx `ApiRequestError` other
than 429 is rethrown immediately. -/
def isNonRetryable : ReqError → Bool
  | ReqError.api status _ => decide (400 ≤ status ∧ status < 500 ∧ status ≠ 429)
  | ReqError.network _ => false

/-- The attempt loop of `ApiClient.request`: `attempts i` is the outcome of
attempt `i` (`none` = success).  `attempt` is the 0-based index of the
current attempt and `remaining` the number of retries still allowed
(`retries - attempt`); the result is the total number of attempts performed
and the surfaced error, if any. -/
def requestGo (attempts : Nat → Option ReqError) :
    Nat → Nat → Nat × Option ReqError
  | attempt, remaining =>
      match attempts attempt with
      | none => (attempt + 1, none)
      | some e =>
          if isNonRetryable e then (attempt + 1, some e)
          else
            match remaining with
            | 0 => (attempt + 1, some e)
            | r + 1 => requestGo attempts (attempt + 1) r

/-- `ApiClient.request` with the default `retries = 3`. -/
def requestRun (attempts : Nat → Option ReqError) : Nat × Option ReqError :=
  requestGo attempts 0 3

/-! ### Scheduled sync — `src/sync/scheduled-sync.ts` -/

/-- `CHECK_INTERVALS`, in source order: threshold in hours until the
digest, paired with the check interval in milliseconds. -/
def CHECK_INTERVALS : List (ℚ × ℕ) :=
  [(12, 60 * 60 * 1000), (6, 30 * 60 * 1000), (2, 15 * 60 * 1000), (1, 10 * 60 * 1000)]

/-- `DEFAULT_CHECK_INTERVAL` (1 hour, in milliseconds). -/
def DEFAULT_CHECK_INTERVAL : ℕ := 60 * 60 * 1000

/-- `MIN_SYNC_INTERVAL` (30 minutes, in milliseconds). -/
def MIN_SYNC_INTERVAL : ℤ := 30 * 60 * 1000

/-- `ScheduledSyncManager.getCheckInterval`: first tier (in source order)
whose threshold the hours-until-digest value does not exceed, else the
default interval. -/
def getCheckInterval (hoursUntilDigest : ℚ) : ℕ :=
  match CHECK_INTERVALS.find? (fun tier => decide (hoursUntilDigest ≤ tier.1)) with
  | some tier => tier.2
  | none => DEFAULT_CHECK_INTERVAL

/-- `ScheduledSyncManager.shouldTriggerSync`: no previous scheduled sync,
or at least `MIN_SYNC_INTERVAL` elapsed since it. -/
def shouldTriggerSync (lastScheduledSync : Option ℤ) (now : ℤ) : Bool :=
  match lastScheduledSync with
  | none => true
  | some t => decide (MIN_SYNC_INTERVAL ≤ now - t)

/-- `(nextDigest.getTime() - now.getTime()) / (1000 * 60 * 60)`. -/
def hoursUntilDigestOf (digest now : ℤ) : ℚ :=
  ((digest - now : ℤ) : ℚ) / (1000 * 60 * 60)

/-- The schedule payload (`ScheduleResponse`): enabled flag and the next
digest instant in epoch milliseconds, when known. -/
structure ScheduleResponse where
  is_enabled : Bool
  next_digest_utc : Option ℤ
  deriving DecidableEq

/-- Result of one `ScheduledSyncManager.checkAndSync` cycle: whether the
full-sync trigger was invoked, the stamped last-scheduled-sync time, and
the interval passed to `scheduleNextCheck` (`none` when the manager
returned before rescheduling, i.e. the setting is off). -/
structure CheckOutcome where
  triggered : Bool
  lastScheduledSync : Option ℤ
  nextInterval : Option ℕ
  deriving DecidableEq

/-- `ScheduledSyncManager.checkAndSync` as a function of the scheduled-sync
setting, the configured pre-digest window (hours), the schedule fetched for
this cycle (`none` covers a missing schedule or a failed fetch), the
current time and the previous trigger stamp. -/
def checkAndSync (scheduledSync : Bool) (scheduledSyncHoursBefore : ℚ)
    (schedule : Option ScheduleResponse) (now : ℤ)
    (lastScheduledSync : Option ℤ) : CheckOutcome :=
  if !scheduledSync then ⟨false, lastScheduledSync, none⟩
  else
    match schedule with
    | none => ⟨false, lastScheduledSync, some DEFAULT_CHECK_INTERVAL⟩
    | some sched =>
        if !sched.is_enabled then ⟨false, lastScheduledSync, some DEFAULT_CHECK_INTERVAL⟩
        else
          match sched.next_digest_utc with
          | none => ⟨false, lastScheduledSync, some DEFAULT_CHECK_INTERVAL⟩
          | some digest =>
              let h := hoursUntilDigestOf digest now
              if 0 < h ∧ h ≤ scheduledSyncHoursBefore then
                if shouldTriggerSync lastScheduledSync now then
                  ⟨true, some now, some (getCheckInterval h)⟩
                else ⟨false, lastScheduledSync, some (getCheckInterval h)⟩
              else ⟨false, lastScheduledSync, some (getCheckInterval h)⟩

/-! ### Queueing — `VaultSyncer.queueChange` / `queueDelete` / `queueRename` -/

/-- The two pending sets of `VaultSyncer` (JavaScript `Set<string>`,
insertion-ordered and duplicate-free). -/
structure SyncerState where
  pendingChanges : List String
  pendingDeletes : List String
  deriving DecidableEq

/-- `Set.prototype.add`: append when absent. -/
def setAdd (s : List String) (p : String) : List String :=
  if s.contains p then s else s ++ [p]

/-- `Set.prototype.delete`: remove every occurrence. -/
def setDelete (s : List String) (p : String) : List String :=
  s.filter (fun q => q != p)

/-- `VaultSyncer.queueChange`: skip non-markdown and excluded files,
otherwise add to pending changes, drop from pending deletes and schedule
the debounced drain.  The returned flag records whether the drain was
scheduled. -/
def queueChange (rules : ExclusionRules) (st : SyncerState) (path : String)
    (tags : List String) : SyncerState × Bool :=
  if !(strEndsWith path ".md") then (st, false)
  else if shouldExclude rules path tags then (st, false)
  else
    ({ pendingChanges := setAdd st.pendingChanges path
       pendingDeletes := setDelete st.pendingDeletes path }, true)

/-- `VaultSyncer.queueDelete`: skip non-markdown paths, otherwise add to
pending deletes, drop from pending changes and schedule the drain. -/
def queueDelete (st : SyncerState) (path : String) : SyncerState × Bool :=
  if !(strEndsWith path ".md") then (st, false)
  else
    ({ pendingChanges := setDelete st.pendingChanges path
       pendingDeletes := setAdd st.pendingDeletes path }, true)

/-- `VaultSyncer.queueRename`: skip unless both paths are markdown;
otherwise queue the old path for deletion and, when the renamed file is
found in the vault (`newFileExists`, with tag list `newTags`), run
`queueChange` on the new path. -/
def queueRename (rules : ExclusionRules) (st : SyncerState)
    (oldPath newPath : String) (newFileExists : Bool) (newTags : List String) :
    SyncerState × Bool :=
  if !(strEndsWith oldPath ".md") || !(strEndsWith newPath ".md") then (st, false)
  else
    let st1 : SyncerState :=
      { pendingChanges := setDelete st.pendingChanges oldPath
        pendingDeletes := setAdd st.pendingDeletes oldPath }
    let st2 := if newFileExists then (queueChange rules st1 newPath newTags).1 else st1
    (st2, true)

/-- Invariant of the pending sets: every queued path ends in `.md`. -/
def mdInvariant (st : SyncerState) : Prop :=
  ∀ p, p ∈ st.pendingChanges ∨ p ∈ st.pendingDeletes → strEndsWith p ".md" = true

/-- A note with the given path and content hash and trivial remaining
metadata; used to instantiate theorems at concrete inputs. -/
def mkNote (p h : String) : Note :=
  { path := p, title := "", content := "", contentHash := h, tags := []
    headings := [], links := [], frontmatter := [], wordCount := 0
    createdTime := "", modifiedTime := "" }

theorem lookupRec_nil (q : String) : lookupRec [] q = none := rfl

theorem lookupRec_cons (e : String × String) (r : Rec) (q : String) :
    lookupRec (e :: r) q = if e.1 = q then some e.2 else lookupRec r q := by
  by_cases h : e.1 = q
  · rw [if_pos h]
    unfold lookupRec
    rw [List.find?_cons_of_pos _ (by simp [h])]
    rfl
  · rw [if_neg h]
    unfold lookupRec
    rw [List.find?_cons_of_neg _ (by simp [h])]

theorem hasKey_cons (e : String × String) (r : Rec) (q : String) :
    hasKey (e :: r) q = if e.1 = q then true else hasKey r q := by
  unfold hasKey
  rw [lookupRec_cons]
  by_cases h : e.1 = q <;> simp [h]

theorem lookupRec_append (a b : Rec) (p : String) :
    lookupRec (a ++ b) p =
      match lookupRec a p with
      | some v => some v
      | none => lookupRec b p := by
  induction a with
  | nil => simp [lookupRec]
  | cons e rest ih =>
      rw [List.cons_append, lookupRec_cons, lookupRec_cons]
      by_cases h : e.1 = p
      · simp [h]
      · simp only [if_neg h]
        exact ih

theorem lookupRec_map_override (r : Rec) (p v q : String) :
    lookupRec (r.map (fun e => if e.1 == p then (e.1, v) else e)) q =
      if q = p then (if hasKey r p then some v else none) else lookupRec r q := by
  induction r with
  | nil => by_cases hq : q = p <;> simp [lookupRec, hasKey, hq]
  | cons e rest ih =>
      simp only [beq_iff_eq] at ih ⊢
      rw [List.map_cons, lookupRec_cons, hasKey_cons, lookupRec_cons]
      by_cases hep : e.1 = p
      · by_cases hq : q = p
        · subst hq
          simp [hep]
        · have hpq : ¬ p = q := fun h => hq h.symm
          have hne : e.1 ≠ q := by
            rw [hep]
            exact hpq
          simp [hep, hne, hq, hpq, ih]
      · by_cases hq : q = p
        · subst hq
          simpa [hep] using ih
        · by_cases heq : e.1 = q
          · simp [hep, heq, hq]
          · simp [hep, heq, hq, ih]

theorem lookupRec_filter_not_hasKey (a b : Rec) (p : String) :
    lookupRec (b.filter (fun e => !(hasKey a e.1))) p =
      if hasKey a p then none else lookupRec b p := by
  induction b with
  | nil => by_cases h : hasKey a p <;> simp [lookupRec_nil, h]
  | cons e rest ih =>
      rw [List.filter_cons]
      by_cases hep : e.1 = p
      · subst hep
        by_cases ha : hasKey a e.1
        · simp [ha, ih]
        · simp [ha, lookupRec_cons, ih]
      · by_cases ha : hasKey a e.1
        · simp [ha, lookupRec_cons, hep, ih]
        · simp [ha, lookupRec_cons, hep, ih]

theorem lookupRec_map_merge (a b : Rec) (p : String) :
    lookupRec (a.map (fun e => (e.1, (lookupRec b e.1).getD e.2))) p =
      (lookupRec a p).map (fun v => (lookupRec b p).getD v) := by
  induction a with
  | nil => simp [lookupRec]
  | cons e rest ih =>
      rw [List.map_cons, lookupRec_cons, lookupRec_cons]
      by_cases hep : e.1 = p
      · subst hep
        simp
      · simp only [if_neg hep]
        exact ih

theorem lookupRec_merge (a b : Rec) (p : String) :
    lookupRec (mergeRec a b) p =
      match lookupRec b p with
      | some v => some v
      | none => lookupRec a p := by
  unfold mergeRec
  rw [lookupRec_append, lookupRec_map_merge, lookupRec_filter_not_hasKey]
  cases ha : lookupRec a p with
  | none => cases hb : lookupRec b p <;> simp [hasKey, ha, hb]
  | some v => cases hb : lookupRec b p <;> simp [hasKey, ha, hb]

theorem lookupRec_jsSet (r : Rec) (p v q : String) :
    lookupRec (jsSet r p v) q = if q = p then some v else lookupRec r q := by
  unfold jsSet
  by_cases hk : hasKey r p
  · rw [if_pos hk, lookupRec_map_override]
    by_cases hq : q = p
    · simp [hq, hk]
    · simp [hq]
  · rw [if_neg hk, lookupRec_append]
    by_cases hq : q = p
    · subst hq
      have hnone : lookupRec r q = none := by
        cases h : lookupRec r q with
        | none => rfl
        | some v => exact absurd (by simp [hasKey, h]) hk
      simp [hnone, lookupRec_cons]
    · have hpq : p ≠ q := fun h => hq h.symm
      cases h : lookupRec r q with
      | none => simp [h, lookupRec_cons, hpq, hq, lookupRec_nil]
      | some w => simp [h, hq]

theorem lookupRec_removeKeys (r : Rec) (ps : List String) (q : String) :
    lookupRec (removeKeys r ps) q = if q ∈ ps then none else lookupRec r q := by
  unfold removeKeys
  induction r with
  | nil => by_cases h : q ∈ ps <;> simp [lookupRec_nil, h]
  | cons e rest ih =>
      simp only [List.contains, List.elem_eq_mem] at ih
      rw [List.filter_cons]
      by_cases hq : e.1 = q
      · subst hq
        by_cases hc : e.1 ∈ ps
        · simp [hc, ih]
        · simp [hc, lookupRec_cons, ih]
      · by_cases hc : e.1 ∈ ps
        · simp [hc, lookupRec_cons, hq, ih]
        · simp [hc, lookupRec_cons, hq, ih]

theorem lookupRec_mem (r : Rec) (p h : String) (hl : lookupRec r p = some h) :
    (p, h) ∈ r := by
  induction r with
  | nil => simp [lookupRec_nil] at hl
  | cons e rest ih =>
      rw [lookupRec_cons] at hl
      by_cases hep : e.1 = p
      · rw [if_pos hep] at hl
        have he : e = (p, h) := by
          cases e with
          | mk a b =>
              simp at hep hl
              simp [hep, hl]
        rw [← he]
        exact List.mem_cons_self e rest
      · rw [if_neg hep] at hl
        exact List.mem_cons_of_mem e (ih hl)

theorem lookupRec_eq_some_of_mem (r : Rec) (hnd : (r.map Prod.fst).Nodup)
    (p h : String) (hm : (p, h) ∈ r) : lookupRec r p = some h := by
  induction r with
  | nil => simp at hm
  | cons e rest ih =>
      rw [List.map_cons, List.nodup_cons] at hnd
      rw [lookupRec_cons]
      rcases List.mem_cons.mp hm with he | hrest
      · rw [← he]
        simp
      · have hp : p ∈ rest.map Prod.fst :=
          List.mem_map.mpr ⟨(p, h), hrest, rfl⟩
        have hep : e.1 ≠ p := fun h' => hnd.1 (h' ▸ hp)
        rw [if_neg hep]
        exact ih hnd.2 hrest

theorem hasKey_true_iff (r : Rec) (p : String) :
    hasKey r p = true ↔ p ∈ r.map Prod.fst := by
  induction r with
  | nil => simp [hasKey, lookupRec_nil]
  | cons e rest ih =>
      rw [hasKey_cons]
      by_cases hep : e.1 = p
      · simp [hep, ih]
      · have hpe : ¬ p = e.1 := fun h => hep h.symm
        simp [hep, hpe, ih]

theorem hasChanged_true_iff (r : Rec) (p h : String) :
    hasChanged r p h = true ↔ lookupRec r p ≠ some h := by
  unfold hasChanged
  cases hl : lookupRec r p with
  | none => simp
  | some v => by_cases hv : v = h <;> simp [hv]

/-- C5: for every tracked state and complete current snapshot,
`calculateDiff` returns exactly the current paths whose fingerprint differs
from or is missing in the record as `changed`, and the tracked paths absent
from the snapshot as `deleted`. -/
theorem claim5_calculateDiff (noteHashes currentHashes : Rec)
    (hc : (currentHashes.map Prod.fst).Nodup) :
    (∀ p, p ∈ (calculateDiff noteHashes currentHashes).changed ↔
      ∃ h, lookupRec currentHashes p = some h ∧ lookupRec noteHashes p ≠ some h) ∧
    (∀ p, p ∈ (calculateDiff noteHashes currentHashes).deleted ↔
      (p ∈ noteHashes.map Prod.fst ∧ ¬ p ∈ currentHashes.map Prod.fst)) := by
  constructor
  · intro p
    show p ∈ (currentHashes.filter _).map Prod.fst ↔ _
    rw [List.mem_map]
    constructor
    · rintro ⟨e, hmem, hfst⟩
      rw [List.mem_filter] at hmem
      refine ⟨e.2, ?_, ?_⟩
      · have hm : (p, e.2) ∈ currentHashes := by
          have : (e.1, e.2) = e := rfl
          rw [← hfst, this]
          exact hmem.1
        exact lookupRec_eq_some_of_mem currentHashes hc p e.2 hm
      · have := (hasChanged_true_iff noteHashes e.1 e.2).mp hmem.2
        rw [hfst] at this
        exact this
    · rintro ⟨h, hl, hne⟩
      refine ⟨(p, h), ?_, rfl⟩
      rw [List.mem_filter]
      exact ⟨lookupRec_mem _ _ _ hl, (hasChanged_true_iff _ _ _).mpr hne⟩
  · intro p
    show p ∈ (noteHashes.map Prod.fst).filter _ ↔ _
    rw [List.mem_filter, ← hasKey_true_iff currentHashes p]
    constructor
    · rintro ⟨hm, hk⟩
      exact ⟨hm, by simpa using hk⟩
    · rintro ⟨hm, hk⟩
      exact ⟨hm, by simpa using hk⟩

/-- C5 witness: on the tracked state `{a ↦ 1, b ↦ 2}` and snapshot
`{a ↦ 1, c ↦ 3}`, the path `c` is reported changed and `b` deleted. -/
theorem claim5_witness :
    ("c" ∈ (calculateDiff [("a", "1"), ("b", "2")] [("a", "1"), ("c", "3")]).changed) ∧
    ("b" ∈ (calculateDiff [("a", "1"), ("b", "2")] [("a", "1"), ("c", "3")]).deleted) := by
  have h := claim5_calculateDiff [("a", "1"), ("b", "2")] [("a", "1"), ("c", "3")]
    (by decide)
  exact ⟨(h.1 "c").mpr ⟨"3", by decide, by decide⟩, (h.2 "b").mpr ⟨by decide, by decide⟩⟩

/-- C6 counterexample: the claim says the trailing separator is appended to
both sides so a candidate exactly equal to the rule folder matches; the
source `matchesPath` appends it to the rule only, and the candidate
`private` does not match the rule `private`, while the spec-worded test
does. -/
theorem claim6_counterexample :
    matchesPath ⟨["private"], []⟩ "private" = false ∧
    specMatchesPath ⟨["private"], []⟩ "private" = true := by
  constructor
  · decide
  · decide

/-- C6 (amended): a candidate matches a folder exclusion iff the candidate
path, used verbatim, begins with some rule folder normalized to end with a
trailing separator; the separator is appended to the rule only, so a
candidate exactly equal to a rule folder without trailing separator does
not match. -/
theorem claim6_matchesPath (rules : ExclusionRules) (path : String) :
    matchesPath rules path = true ↔
      ∃ folder ∈ rules.folders, strStartsWith path (normalizedFolder folder) = true := by
  unfold matchesPath
  simp [List.any_eq_true]

/-- C10: for a non-empty path list, a failing server delete call leaves the
tracker map untouched and surfaces the failure; fingerprints are removed
only once the call succeeds. -/
theorem claim10_deleteNotes (tracked : Rec) (paths : List String) (hne : paths ≠ []) :
    ((deleteNotesRun tracked paths false).tracker = tracked ∧
      (deleteNotesRun tracked paths false).failed = true) ∧
    (∀ p ∈ paths, lookupRec (deleteNotesRun tracked paths true).tracker p = none) := by
  have hlen : ¬ paths.length = 0 := fun h => hne (List.length_eq_zero.mp h)
  refine ⟨⟨?_, ?_⟩, ?_⟩
  · simp [deleteNotesRun, hlen]
  · simp [deleteNotesRun, hlen]
  · intro p hp
    simp [deleteNotesRun, hlen, removeHashes, lookupRec_removeKeys, hp]

/-- C10 witness: on the tracked map `{a ↦ 1}` and path list `[a]`, a failed
call keeps the entry and reports failure, while a successful call removes
it. -/
theorem claim10_witness :
    ((deleteNotesRun [("a", "1")] ["a"] false).tracker = [("a", "1")] ∧
      (deleteNotesRun [("a", "1")] ["a"] false).failed = true) ∧
    lookupRec (deleteNotesRun [("a", "1")] ["a"] true).tracker "a" = none := by
  have h := claim10_deleteNotes [("a", "1")] ["a"] (by decide)
  exact ⟨h.1, h.2 "a" (by decide)⟩

/-- C2 counterexample: with 8 hours until delivery — inside the 6–12 hour
band, for which the claim demands a 30-minute interval — the source
`getCheckInterval` returns the hourly interval, because the tier list is
scanned in source order and the 12-hour tier absorbs every value below 12. -/
theorem claim2_counterexample :
    getCheckInterval 8 = 60 * 60 * 1000 ∧
    ¬ getCheckInterval 8 = 30 * 60 * 1000 := by
  constructor
  · decide
  · decide

/-- C2 (amended): the next check interval is the hourly default for every
hours-until-delivery value — the descending scan order makes the
30/15/10-minute tiers unreachable — and the unknown/disabled-schedule path
also reschedules hourly. -/
theorem claim2_getCheckInterval :
    (∀ q : ℚ, getCheckInterval q = DEFAULT_CHECK_INTERVAL) ∧
    (∀ (w : ℚ) (now : ℤ) (last : Option ℤ),
      (checkAndSync true w none now last).nextInterval = some DEFAULT_CHECK_INTERVAL) := by
  constructor
  · intro q
    unfold getCheckInterval CHECK_INTERVALS
    by_cases hq : q ≤ 12
    · simp [List.find?, hq, DEFAULT_CHECK_INTERVAL]
    · have h6 : ¬ q ≤ 6 := by
        intro h
        exact hq (by linarith)
      have h2 : ¬ q ≤ 2 := by
        intro h
        exact hq (by linarith)
      have h1 : ¬ q ≤ 1 := by
        intro h
        exact hq (by linarith)
      simp [List.find?, hq, h6, h2, h1, DEFAULT_CHECK_INTERVAL]
  · intro w now last
    simp [checkAndSync]

theorem shouldTriggerSync_true_iff (last : Option ℤ) (now : ℤ) :
    shouldTriggerSync last now = true ↔
      ∀ t, last = some t → MIN_SYNC_INTERVAL ≤ now - t := by
  cases last with
  | none => simp [shouldTriggerSync]
  | some t => simp [shouldTriggerSync]

/-- C8: with the scheduled-sync setting on, a check triggers a sync exactly
when the fetched schedule is enabled with a known next-delivery instant,
the hours remaining are strictly positive and at most the configured
pre-delivery window, and no scheduled sync fired less than 30 minutes ago;
and a triggering check stamps the trigger time. -/
theorem claim8_checkAndSync (w : ℚ) (schedule : Option ScheduleResponse)
    (now : ℤ) (last : Option ℤ) :
    ((checkAndSync true w schedule now last).triggered = true ↔
      ∃ sched digest, schedule = some sched ∧ sched.is_enabled = true ∧
        sched.next_digest_utc = some digest ∧
        0 < hoursUntilDigestOf digest now ∧
        hoursUntilDigestOf digest now ≤ w ∧
        ∀ t, last = some t → MIN_SYNC_INTERVAL ≤ now - t) ∧
    ((checkAndSync true w schedule now last).triggered = true →
      (checkAndSync true w schedule now last).lastScheduledSync = some now) := by
  cases schedule with
  | none =>
      refine ⟨⟨fun h => absurd h (by simp [checkAndSync]), ?_⟩,
        fun h => absurd h (by simp [checkAndSync])⟩
      rintro ⟨s', d', hs', _⟩
      exact absurd hs' (by simp)
  | some sched =>
      cases hen : sched.is_enabled with
      | false =>
          refine ⟨⟨fun h => absurd h (by simp [checkAndSync, hen]), ?_⟩,
            fun h => absurd h (by simp [checkAndSync, hen])⟩
          rintro ⟨s', d', hs', he', _⟩
          injection hs' with hs'
          subst hs'
          rw [hen] at he'
          exact (Bool.false_ne_true he').elim
      | true =>
          cases hd : sched.next_digest_utc with
          | none =>
              refine ⟨⟨fun h => absurd h (by simp [checkAndSync, hen, hd]), ?_⟩,
                fun h => absurd h (by simp [checkAndSync, hen, hd])⟩
              rintro ⟨s', d', hs', he', hd', _⟩
              injection hs' with hs'
              subst hs'
              rw [hd] at hd'
              exact Option.noConfusion hd'
          | some digest =>
              by_cases hwin : 0 < hoursUntilDigestOf digest now ∧
                  hoursUntilDigestOf digest now ≤ w
              · by_cases hsh : shouldTriggerSync last now = true
                · have hcomp : checkAndSync true w (some sched) now last =
                      ⟨true, some now, some (getCheckInterval (hoursUntilDigestOf digest now))⟩ := by
                    simp [checkAndSync, hen, hd, hwin, hsh]
                  rw [hcomp]
                  refine ⟨⟨fun _ => ?_, fun _ => rfl⟩, fun _ => rfl⟩
                  exact ⟨sched, digest, rfl, hen, hd, hwin.1, hwin.2,
                    (shouldTriggerSync_true_iff last now).mp hsh⟩
                · have hcomp : checkAndSync true w (some sched) now last =
                      ⟨false, last, some (getCheckInterval (hoursUntilDigestOf digest now))⟩ := by
                    simp [checkAndSync, hen, hd, hwin, hsh]
                  rw [hcomp]
                  refine ⟨⟨fun h => Bool.noConfusion h, ?_⟩, fun h => Bool.noConfusion h⟩
                  rintro ⟨s', d', hs', he', hd', h1, h2, hcool⟩
                  injection hs' with hs'
                  subst hs'
                  rw [hd] at hd'
                  injection hd' with hd'
                  subst hd'
                  exact (hsh ((shouldTriggerSync_true_iff last now).mpr hcool)).elim
              · have hcomp : checkAndSync true w (some sched) now last =
                    ⟨false, last, some (getCheckInterval (hoursUntilDigestOf digest now))⟩ := by
                  simp [checkAndSync, hen, hd, hwin]
                rw [hcomp]
                refine ⟨⟨fun h => Bool.noConfusion h, ?_⟩, fun h => Bool.noConfusion h⟩
                rintro ⟨s', d', hs', he', hd', h1, h2, hcool⟩
                injection hs' with hs'
                subst hs'
                rw [hd] at hd'
                injection hd' with hd'
                subst hd'
                exact (hwin ⟨h1, h2⟩).elim

/-- C8 witness: one hour until delivery, a 2-hour window and no previous
scheduled sync trigger the full sync. -/
theorem claim8_witness :
    (checkAndSync true 2 (some ⟨true, some 3600000⟩) 0 none).triggered = true ∧
    (checkAndSync true 2 (some ⟨true, some 3600000⟩) 0 none).lastScheduledSync = some 0 := by
  have h := claim8_checkAndSync 2 (some ⟨true, some 3600000⟩) 0 none
  have htr : (checkAndSync true 2 (some ⟨true, some 3600000⟩) 0 none).triggered = true :=
    (h.1).mpr ⟨⟨true, some 3600000⟩, 3600000, rfl, rfl, rfl,
      by norm_num [hoursUntilDigestOf], by norm_num [hoursUntilDigestOf],
      by intro t ht; exact Option.noConfusion ht⟩
  exact ⟨htr, h.2 htr⟩

/-- C3: a request whose every attempt fails with HTTP 500 performs exactly
4 attempts (1 + 3 retries) and surfaces the last attempt's error; a request
whose first attempt fails with a 4xx status other than 429 (for example
401) performs exactly 1 attempt and surfaces that error. -/
theorem claim3_request :
    (∀ (attempts : Nat → Option ReqError) (msg : Nat → String),
      (∀ i, attempts i = some (ReqError.api 500 (msg i))) →
      requestRun attempts = (4, some (ReqError.api 500 (msg 3)))) ∧
    (∀ (attempts : Nat → Option ReqError) (status : Nat) (m : String),
      attempts 0 = some (ReqError.api status m) →
      400 ≤ status → status < 500 → status ≠ 429 →
      requestRun attempts = (1, some (ReqError.api status m))) := by
  constructor
  · intro attempts msg h
    have h0 := h 0
    have h1 := h 1
    have h2 := h 2
    have h3 := h 3
    have hnr : ∀ m', isNonRetryable (ReqError.api 500 m') = false := by
      intro m'
      simp [isNonRetryable]
    simp [requestRun, requestGo, h0, h1, h2, h3, hnr]
  · intro attempts status m h0 h400 h500 h429
    have hnr : isNonRetryable (ReqError.api status m) = true := by
      simp [isNonRetryable]
      exact ⟨h400, h500, h429⟩
    simp [requestRun, requestGo, h0, hnr]

/-- C3 witness: a constant-500 attempt stream yields 4 attempts and the
final 500 error; a constant-401 stream yields a single attempt and its
error. -/
theorem claim3_witness :
    requestRun (fun _ => some (ReqError.api 500 "server down")) =
      (4, some (ReqError.api 500 "server down")) ∧
    requestRun (fun _ => some (ReqError.api 401 "bad token")) =
      (1, some (ReqError.api 401 "bad token")) := by
  constructor
  · exact claim3_request.1 (fun _ => some (ReqError.api 500 "server down"))
      (fun _ => "server down") (fun _ => rfl)
  · exact claim3_request.2 (fun _ => some (ReqError.api 401 "bad token"))
      401 "bad token" rfl (by decide) (by decide) (by decide)

theorem mem_setAdd (s : List String) (q p : String) (h : p ∈ setAdd s q) :
    p ∈ s ∨ p = q := by
  unfold setAdd at h
  by_cases hc : s.contains q = true
  · rw [if_pos hc] at h
    exact Or.inl h
  · rw [if_neg hc] at h
    rcases List.mem_append.mp h with h' | h'
    · exact Or.inl h'
    · exact Or.inr (by simpa using h')

theorem mem_setDelete (s : List String) (q p : String) (h : p ∈ setDelete s q) :
    p ∈ s := by
  unfold setDelete at h
  exact (List.mem_filter.mp h).1

theorem queueChange_mdInvariant (rules : ExclusionRules) (st : SyncerState)
    (path : String) (tags : List String) (hinv : mdInvariant st) :
    mdInvariant (queueChange rules st path tags).1 := by
  unfold queueChange
  cases hmd : strEndsWith path ".md" with
  | false => simpa using hinv
  | true =>
      by_cases hex : shouldExclude rules path tags = true
      · simpa [hex] using hinv
      · simp [hex]
        intro p hp
        rcases hp with hp | hp
        · rcases mem_setAdd _ _ _ hp with h' | h'
          · exact hinv p (Or.inl h')
          · rw [h']
            exact hmd
        · exact hinv p (Or.inr (mem_setDelete _ _ _ hp))

theorem queueDelete_mdInvariant (st : SyncerState) (path : String)
    (hinv : mdInvariant st) : mdInvariant (queueDelete st path).1 := by
  unfold queueDelete
  cases hmd : strEndsWith path ".md" with
  | false => simpa using hinv
  | true =>
      simp
      intro p hp
      rcases hp with hp | hp
      · exact hinv p (Or.inl (mem_setDelete _ _ _ hp))
      · rcases mem_setAdd _ _ _ hp with h' | h'
        · exact hinv p (Or.inr h')
        · rw [h']
          exact hmd

theorem queueRename_mdInvariant (rules : ExclusionRules) (st : SyncerState)
    (oldPath newPath : String) (newFileExists : Bool) (newTags : List String)
    (hinv : mdInvariant st) :
    mdInvariant (queueRename rules st oldPath newPath newFileExists newTags).1 := by
  unfold queueRename
  cases hold : strEndsWith oldPath ".md" with
  | false => simpa using hinv
  | true =>
      cases hnew : strEndsWith newPath ".md" with
      | false => simpa using hinv
      | true =>
          have hinv1 : mdInvariant
              ⟨setDelete st.pendingChanges oldPath, setAdd st.pendingDeletes oldPath⟩ := by
            intro p hp
            rcases hp with hp | hp
            · exact hinv p (Or.inl (mem_setDelete _ _ _ hp))
            · rcases mem_setAdd _ _ _ hp with h' | h'
              · exact hinv p (Or.inr h')
              · rw [h']
                exact hold
          cases hnf : newFileExists with
          | false => simpa using hinv1
          | true =>
              simp
              exact queueChange_mdInvariant rules _ newPath newTags hinv1

/-- C9: the queueing operations ignore every path not ending in `.md` —
the pending sets are unchanged and no drain is scheduled — and,
consequently, starting from the empty state every path ever present in a
pending set ends in `.md` (the invariant holds initially and is preserved
by each operation). -/
theorem claim9_queueMarkdownOnly :
    (∀ (rules : ExclusionRules) (st : SyncerState) (path : String) (tags : List String),
      strEndsWith path ".md" = false → queueChange rules st path tags = (st, false)) ∧
    (∀ (st : SyncerState) (path : String),
      strEndsWith path ".md" = false → queueDelete st path = (st, false)) ∧
    (∀ (rules : ExclusionRules) (st : SyncerState) (oldPath newPath : String)
        (newFileExists : Bool) (newTags : List String),
      strEndsWith oldPath ".md" = false ∨ strEndsWith newPath ".md" = false →
      queueRename rules st oldPath newPath newFileExists newTags = (st, false)) ∧
    mdInvariant ⟨[], []⟩ ∧
    (∀ (rules : ExclusionRules) (st : SyncerState) (path : String) (tags : List String),
      mdInvariant st → mdInvariant (queueChange rules st path tags).1) ∧
    (∀ (st : SyncerState) (path : String),
      mdInvariant st → mdInvariant (queueDelete st path).1) ∧
    (∀ (rules : ExclusionRules) (st : SyncerState) (oldPath newPath : String)
        (newFileExists : Bool) (newTags : List String),
      mdInvariant st → mdInvariant (queueRename rules st oldPath newPath newFileExists newTags).1) := by
  refine ⟨?_, ?_, ?_, ?_, ?_, ?_, ?_⟩
  · intro rules st path tags h
    simp [queueChange, h]
  · intro st path h
    simp [queueDelete, h]
  · intro rules st oldPath newPath newFileExists newTags h
    rcases h with h | h
    · simp [queueRename, h]
    · simp [queueRename, h]
  · intro p hp
    rcases hp with hp | hp <;> simp at hp
  · exact queueChange_mdInvariant
  · exact queueDelete_mdInvariant
  · exact queueRename_mdInvariant

/-- C9 witness: queueing `picture.png` (as change, delete, or rename
source) leaves the empty state untouched and schedules no drain. -/
theorem claim9_witness :
    queueChange ⟨[], []⟩ ⟨[], []⟩ "picture.png" [] = (⟨[], []⟩, false) ∧
    queueDelete ⟨[], []⟩ "picture.png" = (⟨[], []⟩, false) ∧
    queueRename ⟨[], []⟩ ⟨[], []⟩ "picture.png" "note.md" true [] = (⟨[], []⟩, false) := by
  have h := claim9_queueMarkdownOnly
  exact ⟨h.1 _ _ _ _ (by decide), h.2.1 _ _ (by decide),
    h.2.2.1 _ _ _ _ _ _ (Or.inl (by decide))⟩

theorem syncNotesBatchedGo_nil (fuel : Nat) : syncNotesBatchedGo fuel [] = [] := by
  cases fuel <;> rfl

theorem syncNotesBatchedGo_ne_nil (fuel : Nat) (l : List Note) (hne : l ≠ [])
    (hfuel : l.length ≤ fuel) : syncNotesBatchedGo fuel l ≠ [] := by
  cases fuel with
  | zero =>
      cases l with
      | nil => exact absurd rfl hne
      | cons x xs => simp at hfuel
  | succ f =>
      cases l with
      | nil => exact absurd rfl hne
      | cons x xs => simp [syncNotesBatchedGo]

theorem syncNotesBatchedGo_sizes (fuel : Nat) :
    ∀ (l : List Note), ∀ b ∈ syncNotesBatchedGo fuel l, b.1.length ≤ BATCH_SIZE := by
  induction fuel with
  | zero =>
      intro l b hb
      simp [syncNotesBatchedGo] at hb
  | succ f ih =>
      intro l b hb
      cases l with
      | nil => simp [syncNotesBatchedGo] at hb
      | cons x xs =>
          simp only [syncNotesBatchedGo] at hb
          rcases List.mem_cons.mp hb with hb | hb
          · rw [hb]
            simp [List.length_take]
          · exact ih _ b hb

theorem syncNotesBatchedGo_flatten (fuel : Nat) :
    ∀ (l : List Note), l.length ≤ fuel →
      ((syncNotesBatchedGo fuel l).map Prod.fst).flatten = l := by
  induction fuel with
  | zero =>
      intro l hl
      have hnil : l = [] := List.length_eq_zero.mp (Nat.le_zero.mp hl)
      subst hnil
      rfl
  | succ f ih =>
      intro l hl
      cases l with
      | nil => rfl
      | cons x xs =>
          simp only [syncNotesBatchedGo, List.map_cons, List.flatten_cons]
          rw [ih ((x :: xs).drop BATCH_SIZE) ?_]
          · exact List.take_append_drop BATCH_SIZE (x :: xs)
          · simp only [List.length_cons] at hl
            simp only [List.length_drop, List.length_cons, BATCH_SIZE]
            omega

theorem syncNotesBatchedGo_flags (fuel : Nat) :
    ∀ (l : List Note), l ≠ [] → l.length ≤ fuel →
      (syncNotesBatchedGo fuel l).map Prod.snd =
        List.replicate ((syncNotesBatchedGo fuel l).length - 1) false ++ [true] := by
  induction fuel with
  | zero =>
      intro l hne hl
      exact absurd (List.length_eq_zero.mp (Nat.le_zero.mp hl)) hne
  | succ f ih =>
      intro l hne hl
      cases l with
      | nil => exact absurd rfl hne
      | cons x xs =>
          by_cases hlen : (x :: xs).length ≤ BATCH_SIZE
          · have hdrop : (x :: xs).drop BATCH_SIZE = [] :=
              List.drop_eq_nil_of_le hlen
            simp [syncNotesBatchedGo, hdrop, syncNotesBatchedGo_nil]
            simpa using hlen
          · have hdrop_ne : (x :: xs).drop BATCH_SIZE ≠ [] := by
              intro h
              have hle : (x :: xs).length ≤ BATCH_SIZE := by
                have := congrArg List.length h
                simp only [List.length_drop, List.length_nil] at this
                omega
              exact hlen hle
            have hdrop_len : ((x :: xs).drop BATCH_SIZE).length ≤ f := by
              simp only [List.length_cons] at hl
              simp only [List.length_drop, List.length_cons, BATCH_SIZE]
              omega
            have hrec := ih _ hdrop_ne hdrop_len
            have hrec_ne := syncNotesBatchedGo_ne_nil f _ hdrop_ne hdrop_len
            have hm : 1 ≤ (syncNotesBatchedGo f ((x :: xs).drop BATCH_SIZE)).length :=
              List.length_pos.mpr hrec_ne
            have hflag : decide (xs.length + 1 ≤ BATCH_SIZE) = false := by
              simp only [decide_eq_false_iff_not]
              intro h
              exact hlen (by simpa using h)
            simp only [syncNotesBatchedGo, List.map_cons, List.length_cons]
            rw [hflag, hrec]
            have harith :
                (syncNotesBatchedGo f ((x :: xs).drop BATCH_SIZE)).length + 1 - 1 =
                  ((syncNotesBatchedGo f ((x :: xs).drop BATCH_SIZE)).length - 1) + 1 := by
              omega
            rw [harith, List.replicate_succ]
            rfl

/-- C1: the batch loop splits any note list into consecutive batches of at
most `BATCH_SIZE = 50` notes whose concatenation is the original list, and
the `is_final_batch` flag is set on the last batch of a run and on no
earlier batch. -/
theorem claim1_syncNotesBatched (notes : List Note) :
    (∀ b ∈ syncNotesBatched notes, b.1.length ≤ BATCH_SIZE) ∧
    ((syncNotesBatched notes).map Prod.fst).flatten = notes ∧
    (notes ≠ [] →
      (syncNotesBatched notes).map Prod.snd =
        List.replicate ((syncNotesBatched notes).length - 1) false ++ [true]) :=
  ⟨syncNotesBatchedGo_sizes notes.length notes,
    syncNotesBatchedGo_flatten notes.length notes (Nat.le_refl _),
    fun hne => syncNotesBatchedGo_flags notes.length notes hne (Nat.le_refl _)⟩

/-- C1 witness: a concrete two-note run has a single batch flagged final. -/
theorem claim1_witness :
    (syncNotesBatched [mkNote "a" "1", mkNote "b" "2"]).map Prod.snd =
      List.replicate ((syncNotesBatched [mkNote "a" "1", mkNote "b" "2"]).length - 1) false
        ++ [true] :=
  (claim1_syncNotesBatched [mkNote "a" "1", mkNote "b" "2"]).2.2
    (List.cons_ne_nil _ _)

theorem find?_of_mem_nodup (batch : List Note)
    (hnd : (batch.map Note.path).Nodup) (n : Note) (hm : n ∈ batch) :
    batch.find? (fun m => m.path == n.path) = some n := by
  induction batch with
  | nil => simp at hm
  | cons x xs ih =>
      rw [List.map_cons, List.nodup_cons] at hnd
      rcases List.mem_cons.mp hm with he | hm'
      · subst he
        exact List.find?_cons_of_pos _ (by simp)
      · have hne : x.path ≠ n.path :=
          fun h => hnd.1 (h ▸ List.mem_map.mpr ⟨n, hm', rfl⟩)
        rw [List.find?_cons_of_neg _ (by simp [hne])]
        exact ih hnd.2 hm'

theorem foldl_buildStep_lookup (errs : List SyncError) (batch : List Note) :
    ∀ (acc : Rec) (q : String), (batch.map Note.path).Nodup →
      lookupRec (batch.foldl
        (fun acc note =>
          if errs.any (fun e => e.path == note.path) then acc
          else jsSet acc note.path note.contentHash) acc) q =
        match batch.find? (fun n => n.path == q) with
        | some n =>
            if errs.any (fun e => e.path == q) then lookupRec acc q
            else some n.contentHash
        | none => lookupRec acc q := by
  induction batch with
  | nil =>
      intro acc q _
      rfl
  | cons n rest ih =>
      intro acc q hnd
      rw [List.map_cons, List.nodup_cons] at hnd
      simp only [List.foldl_cons]
      by_cases hq : n.path = q
      · have hfind : (n :: rest).find? (fun m => m.path == q) = some n :=
          List.find?_cons_of_pos _ (by simp [hq])
        have hrest_none : rest.find? (fun m => m.path == q) = none := by
          rw [List.find?_eq_none]
          intro m hm
          simp only [beq_iff_eq]
          intro hmq
          exact hnd.1 (hq ▸ hmq ▸ List.mem_map.mpr ⟨m, hm, rfl⟩)
        rw [ih _ q hnd.2]
        simp only [hrest_none, hfind]
        by_cases herr : errs.any (fun e => e.path == n.path) = true
        · have herr' : errs.any (fun e => e.path == q) = true := hq ▸ herr
          rw [if_pos herr, if_pos herr']
        · have herr' : ¬ errs.any (fun e => e.path == q) = true := fun h => herr (hq ▸ h)
          rw [if_neg herr, if_neg herr', lookupRec_jsSet, if_pos hq.symm]
      · have hfind : (n :: rest).find? (fun m => m.path == q) =
            rest.find? (fun m => m.path == q) :=
          List.find?_cons_of_neg _ (by simp [hq])
        have hacc : lookupRec
            (if errs.any (fun e => e.path == n.path) then acc
             else jsSet acc n.path n.contentHash) q = lookupRec acc q := by
          by_cases herr : errs.any (fun e => e.path == n.path) = true
          · rw [if_pos herr]
          · rw [if_neg herr, lookupRec_jsSet, if_neg (fun h => hq h.symm)]
        rw [ih _ q hnd.2]
        rw [hfind]
        cases hf : rest.find? (fun m => m.path == q) with
        | none =>
            simp only [hf]
            exact hacc
        | some m =>
            simp only [hf]
            by_cases herr' : errs.any (fun e => e.path == q) = true
            · rw [if_pos herr', if_pos herr', hacc]
            · rw [if_neg herr', if_neg herr']

theorem lookupRec_buildHashUpdates (batch : List Note) (errs : List SyncError)
    (hnd : (batch.map Note.path).Nodup) (q : String) :
    lookupRec (buildHashUpdates batch errs) q =
      match batch.find? (fun n => n.path == q) with
      | some n =>
          if errs.any (fun e => e.path == q) then none
          else some n.contentHash
      | none => none := by
  unfold buildHashUpdates
  rw [foldl_buildStep_lookup errs batch [] q hnd]
  cases batch.find? (fun n => n.path == q) <;> simp [lookupRec_nil]

theorem foldl_buildStep_not_mem (errs : List SyncError) (batch : List Note) :
    ∀ (acc : Rec) (q : String), ¬ q ∈ batch.map Note.path →
      lookupRec (batch.foldl
        (fun acc note =>
          if errs.any (fun e => e.path == note.path) then acc
          else jsSet acc note.path note.contentHash) acc) q = lookupRec acc q := by
  induction batch with
  | nil =>
      intro acc q _
      rfl
  | cons n rest ih =>
      intro acc q hq
      rw [List.map_cons] at hq
      have hqn : n.path ≠ q := fun h => hq (List.mem_cons_self _ _ |> (h ▸ ·))
      have hqrest : ¬ q ∈ rest.map Note.path := fun h => hq (List.mem_cons_of_mem _ h)
      simp only [List.foldl_cons]
      rw [ih _ q hqrest]
      by_cases herr : errs.any (fun e => e.path == n.path) = true
      · rw [if_pos herr]
      · rw [if_neg herr, lookupRec_jsSet, if_neg (fun h => hqn h.symm)]

theorem lookupRec_buildHashUpdates_not_mem (batch : List Note) (errs : List SyncError)
    (q : String) (hq : ¬ q ∈ batch.map Note.path) :
    lookupRec (buildHashUpdates batch errs) q = none := by
  unfold buildHashUpdates
  rw [foldl_buildStep_not_mem errs batch [] q hq]
  rfl

theorem lookupRec_applyBatch (tracked : Rec) (batch : List Note)
    (errs : List SyncError) (hnd : (batch.map Note.path).Nodup) (q : String) :
    lookupRec (applyBatch tracked batch errs) q =
      match batch.find? (fun n => n.path == q) with
      | some n =>
          if errs.any (fun e => e.path == q) then lookupRec tracked q
          else some n.contentHash
      | none => lookupRec tracked q := by
  unfold applyBatch updateHashes
  rw [lookupRec_merge, lookupRec_buildHashUpdates batch errs hnd q]
  cases hf : batch.find? (fun n => n.path == q) with
  | none => rfl
  | some n =>
      by_cases herr : errs.any (fun e => e.path == q) = true
      · simp [herr]
      · simp [herr]

theorem lookupRec_applyBatch_not_mem (tracked : Rec) (batch : List Note)
    (errs : List SyncError) (q : String) (hq : ¬ q ∈ batch.map Note.path) :
    lookupRec (applyBatch tracked batch errs) q = lookupRec tracked q := by
  unfold applyBatch updateHashes
  rw [lookupRec_merge, lookupRec_buildHashUpdates_not_mem batch errs q hq]

theorem runBatchesGo_frame (responses : Nat → List SyncError) (fuel : Nat) :
    ∀ (tracked : Rec) (l : List Note) (k : Nat) (q : String),
      ¬ q ∈ l.map Note.path →
      lookupRec (runBatchesGo responses fuel tracked l k) q = lookupRec tracked q := by
  induction fuel with
  | zero =>
      intro tracked l k q _
      cases l <;> rfl
  | succ f ih =>
      intro tracked l k q hq
      cases l with
      | nil => rfl
      | cons x xs =>
          have hq_take : ¬ q ∈ ((x :: xs).take BATCH_SIZE).map Note.path := by
            intro hmem
            rcases List.mem_map.mp hmem with ⟨m, hm, hmq⟩
            exact hq (List.mem_map.mpr ⟨m, List.mem_of_mem_take hm, hmq⟩)
          have hq_drop : ¬ q ∈ ((x :: xs).drop BATCH_SIZE).map Note.path := by
            intro hmem
            rcases List.mem_map.mp hmem with ⟨m, hm, hmq⟩
            exact hq (List.mem_map.mpr ⟨m, List.mem_of_mem_drop hm, hmq⟩)
          show lookupRec (runBatchesGo responses f
            (applyBatch tracked ((x :: xs).take BATCH_SIZE) (responses k))
            ((x :: xs).drop BATCH_SIZE) (k + 1)) q = lookupRec tracked q
          rw [ih _ _ _ _ hq_drop]
          exact lookupRec_applyBatch_not_mem tracked _ _ q hq_take

theorem runBatchesGo_lookup (responses : Nat → List SyncError) (fuel : Nat) :
    ∀ (tracked : Rec) (l : List Note) (k : Nat),
      l.length ≤ fuel → (l.map Note.path).Nodup →
      ∀ (j : Nat) (hj : j < l.length),
        lookupRec (runBatchesGo responses fuel tracked l k) (l.get ⟨j, hj⟩).path =
          if (responses (k + j / BATCH_SIZE)).any
              (fun e => e.path == (l.get ⟨j, hj⟩).path) = true
          then lookupRec tracked (l.get ⟨j, hj⟩).path
          else some (l.get ⟨j, hj⟩).contentHash := by
  induction fuel with
  | zero =>
      intro tracked l k hfuel hnd j hj
      exact absurd hj (by omega)
  | succ f ih =>
      intro tracked l k hfuel hnd j hj
      cases l with
      | nil => simp at hj
      | cons x xs =>
          have hsplit : List.map Note.path ((x :: xs).take BATCH_SIZE) ++
              List.map Note.path ((x :: xs).drop BATCH_SIZE) =
                List.map Note.path (x :: xs) := by
            rw [← List.map_append, List.take_append_drop]
          have hnd' : (List.map Note.path ((x :: xs).take BATCH_SIZE) ++
              List.map Note.path ((x :: xs).drop BATCH_SIZE)).Nodup := by
            rw [hsplit]
            exact hnd
          have hnd_take := (List.nodup_append.mp hnd').1
          have hnd_drop := (List.nodup_append.mp hnd').2.1
          have hdisj := (List.nodup_append.mp hnd').2.2
          show lookupRec (runBatchesGo responses f
              (applyBatch tracked ((x :: xs).take BATCH_SIZE) (responses k))
              ((x :: xs).drop BATCH_SIZE) (k + 1)) _ = _
          by_cases hj50 : j < BATCH_SIZE
          · have hjt : j < ((x :: xs).take BATCH_SIZE).length := by
              rw [List.length_take]
              exact lt_min hj50 hj
            have hget : ((x :: xs).take BATCH_SIZE).get ⟨j, hjt⟩ = (x :: xs).get ⟨j, hj⟩ := by
              simp only [List.get_eq_getElem]
              exact List.getElem_take (x :: xs)
            have hmem_take : (x :: xs).get ⟨j, hj⟩ ∈ (x :: xs).take BATCH_SIZE := by
              rw [← hget]
              exact List.get_mem _ _ _
            have hpath_take : ((x :: xs).get ⟨j, hj⟩).path ∈
                ((x :: xs).take BATCH_SIZE).map Note.path :=
              List.mem_map.mpr ⟨_, hmem_take, rfl⟩
            have hpath_not_drop : ¬ ((x :: xs).get ⟨j, hj⟩).path ∈
                ((x :: xs).drop BATCH_SIZE).map Note.path :=
              fun h => (List.disjoint_left.mp hdisj) hpath_take h
            rw [runBatchesGo_frame responses f _ _ _ _ hpath_not_drop]
            rw [lookupRec_applyBatch tracked _ _ hnd_take]
            rw [find?_of_mem_nodup _ hnd_take _ hmem_take]
            have hdiv : j / BATCH_SIZE = 0 := Nat.div_eq_of_lt hj50
            rw [hdiv]
            simp only [Nat.add_zero]
          · have hBS : 0 < BATCH_SIZE := by decide
            have hle : BATCH_SIZE ≤ j := Nat.le_of_not_lt hj50
            have hj' : j - BATCH_SIZE < ((x :: xs).drop BATCH_SIZE).length := by
              rw [List.length_drop]
              omega
            have hfuel' : ((x :: xs).drop BATCH_SIZE).length ≤ f := by
              rw [List.length_drop]
              simp only [List.length_cons] at hfuel ⊢
              omega
            have hidx : BATCH_SIZE + (j - BATCH_SIZE) = j := by omega
            have hget : ((x :: xs).drop BATCH_SIZE).get ⟨j - BATCH_SIZE, hj'⟩ =
                (x :: xs).get ⟨j, hj⟩ := by
              simp only [List.get_eq_getElem]
              rw [List.getElem_drop (x :: xs)]
              congr 1
            have hrec := ih (applyBatch tracked ((x :: xs).take BATCH_SIZE) (responses k))
              ((x :: xs).drop BATCH_SIZE) (k + 1) hfuel' hnd_drop (j - BATCH_SIZE) hj'
            rw [hget] at hrec
            rw [hrec]
            have hdiv : (k + 1) + (j - BATCH_SIZE) / BATCH_SIZE = k + j / BATCH_SIZE := by
              rw [Nat.div_eq_sub_div hBS hle]
              omega
            rw [hdiv]
            by_cases herr : (responses (k + j / BATCH_SIZE)).any
                (fun e => e.path == ((x :: xs).get ⟨j, hj⟩).path) = true
            · rw [if_pos herr, if_pos herr]
              apply lookupRec_applyBatch_not_mem
              have hmem_drop : (x :: xs).get ⟨j, hj⟩ ∈ (x :: xs).drop BATCH_SIZE := by
                rw [← hget]
                exact List.get_mem _ _ _
              have hpath_drop : ((x :: xs).get ⟨j, hj⟩).path ∈
                  ((x :: xs).drop BATCH_SIZE).map Note.path :=
                List.mem_map.mpr ⟨_, hmem_drop, rfl⟩
              exact fun h => (List.disjoint_left.mp hdisj) h hpath_drop
            · rw [if_neg herr, if_neg herr]

/-- C4: over a whole batched run with per-path-distinct notes, a note's
tracked fingerprint ends up updated to its fresh hash exactly when the
response of its batch carries no per-item error entry for its path;
erroneous paths keep their previous (possibly absent) fingerprint, and the
batches after an erroneous one are still applied. -/
theorem claim4_batchReconciliation (tracked : Rec) (notes : List Note)
    (responses : Nat → List SyncError) (hnd : (notes.map Note.path).Nodup)
    (j : Nat) (hj : j < notes.length) :
    lookupRec (runSyncNotesBatched tracked notes responses) (notes.get ⟨j, hj⟩).path =
      if (responses (j / BATCH_SIZE)).any
          (fun e => e.path == (notes.get ⟨j, hj⟩).path) = true
      then lookupRec tracked (notes.get ⟨j, hj⟩).path
      else some (notes.get ⟨j, hj⟩).contentHash := by
  have h := runBatchesGo_lookup responses notes.length tracked notes 0
    (Nat.le_refl _) hnd j hj
  simpa [runSyncNotesBatched] using h

/-- C4 witness: with the first batch response rejecting `a`, the note `b`
of the same run is still reconciled to its fresh hash. -/
theorem claim4_witness :
    lookupRec (runSyncNotesBatched [] [mkNote "a" "1", mkNote "b" "2"]
      (fun _ => [⟨"a", "rejected"⟩])) "b" = some "2" := by
  have h := claim4_batchReconciliation [] [mkNote "a" "1", mkNote "b" "2"]
    (fun _ => [⟨"a", "rejected"⟩]) (by decide) 1 (by decide)
  rw [if_neg (by decide)] at h
  exact h

theorem runBatches_lookup_of_mem (tracked : Rec) (l : List Note)
    (hnd : (l.map Note.path).Nodup) (n : Note) (hm : n ∈ l) :
    lookupRec (runSyncNotesBatched tracked l (fun _ => [])) n.path =
      some n.contentHash := by
  obtain ⟨⟨j, hj⟩, hget⟩ := List.mem_iff_get.mp hm
  have h := runBatchesGo_lookup (fun _ => []) l.length tracked l 0
    (Nat.le_refl _) hnd j hj
  rw [hget] at h
  simpa [runSyncNotesBatched] using h

theorem fullSyncTracker_eq (tracked : Rec) (fn : List Note) :
    fullSyncTracker tracked fn = removeHashes
      (runSyncNotesBatched tracked fn (fun _ => []))
      (((runSyncNotesBatched tracked fn (fun _ => [])).map Prod.fst).filter
        (fun path => !((fn.map Note.path).contains path))) := rfl

theorem fullSyncTracker_lookup_mem (tracked : Rec) (fn : List Note)
    (hnd : (fn.map Note.path).Nodup) (n : Note) (hm : n ∈ fn) :
    lookupRec (fullSyncTracker tracked fn) n.path = some n.contentHash := by
  rw [fullSyncTracker_eq]
  unfold removeHashes
  rw [lookupRec_removeKeys, if_neg ?hnot]
  · exact runBatches_lookup_of_mem tracked fn hnd n hm
  case hnot =>
    intro hin
    have h2 := (List.mem_filter.mp hin).2
    have hmem : n.path ∈ fn.map Note.path := List.mem_map.mpr ⟨n, hm, rfl⟩
    have hc : (fn.map Note.path).contains n.path = true := by simpa using hmem
    rw [hc] at h2
    simp at h2

theorem fullSyncTracker_keys_sub (tracked : Rec) (fn : List Note)
    (e : String × String) (he : e ∈ fullSyncTracker tracked fn) :
    e.1 ∈ fn.map Note.path := by
  rw [fullSyncTracker_eq] at he
  unfold removeHashes removeKeys at he
  have h1 := List.mem_filter.mp he
  by_contra hnc
  have hmemdp : e.1 ∈ ((runSyncNotesBatched tracked fn (fun _ => [])).map Prod.fst).filter
      (fun path => !((fn.map Note.path).contains path)) := by
    refine List.mem_filter.mpr ⟨List.mem_map.mpr ⟨e, h1.1, rfl⟩, ?_⟩
    simp [hnc]
  have h2 := h1.2
  have hc : (((runSyncNotesBatched tracked fn (fun _ => [])).map Prod.fst).filter
      (fun path => !((fn.map Note.path).contains path))).contains e.1 = true := by
    simpa using hmemdp
  rw [hc] at h2
  simp at h2

/-- C7: after one successful full sync of the filtered note list (no
per-item errors, successful deletions), `calculateDiff` against that same
filtered snapshot is empty in both components — a second immediate full
sync has nothing to upload or delete. -/
theorem claim7_fullSyncIdempotent (tracked : Rec) (rules : ExclusionRules)
    (notes : List Note) (hnd : (notes.map Note.path).Nodup) :
    calculateDiff (fullSyncTracker tracked (filterNotes rules notes))
      (snapshotOf (filterNotes rules notes)) = ⟨[], []⟩ := by
  have hnd_fn : ((filterNotes rules notes).map Note.path).Nodup := by
    unfold filterNotes
    exact List.Nodup.sublist (List.Sublist.map Note.path (List.filter_sublist notes)) hnd
  have hchanged : (snapshotOf (filterNotes rules notes)).filter
      (fun e => hasChanged (fullSyncTracker tracked (filterNotes rules notes)) e.1 e.2)
        = [] := by
    rw [List.filter_eq_nil_iff]
    intro e he
    rcases List.mem_map.mp he with ⟨n, hn, hne⟩
    have hl := fullSyncTracker_lookup_mem tracked _ hnd_fn n hn
    rw [← hne]
    simp [hasChanged, hl]
  have hdeleted : ((fullSyncTracker tracked (filterNotes rules notes)).map Prod.fst).filter
      (fun path => !(hasKey (snapshotOf (filterNotes rules notes)) path)) = [] := by
    rw [List.filter_eq_nil_iff]
    intro p hp
    rcases List.mem_map.mp hp with ⟨e, he, hep⟩
    have hkeys := fullSyncTracker_keys_sub tracked _ e he
    have hkey : hasKey (snapshotOf (filterNotes rules notes)) p = true := by
      rw [hasKey_true_iff]
      have hmapfst : (snapshotOf (filterNotes rules notes)).map Prod.fst =
          (filterNotes rules notes).map Note.path := by
        unfold snapshotOf
        rw [List.map_map]
        rfl
      rw [hmapfst, ← hep]
      exact hkeys
    simp [hkey]
  unfold calculateDiff
  rw [hchanged, hdeleted]
  rfl

/-- C7 witness: one note surviving the filter, synced over the tracked map
`{old ↦ 9}`, leaves an empty diff against its own snapshot. -/
theorem claim7_witness :
    calculateDiff
      (fullSyncTracker [("old", "9")] (filterNotes ⟨["private"], []⟩ [mkNote "a.md" "1"]))
      (snapshotOf (filterNotes ⟨["private"], []⟩ [mkNote "a.md" "1"])) = ⟨[], []⟩ :=
  claim7_fullSyncIdempotent [("old", "9")] ⟨["private"], []⟩ [mkNote "a.md" "1"]
    (by decide)
